import Mathlib

set_option maxHeartbeats 1000000

/-!
Shallow embedding of `tools/unicode_dbl_width.py`: the build-time generator
that classifies Unicode code points into display-width categories and emits
the two runtime dispatch tables (`_termpty_is_wide`, `_termpty_is_ambigous_wide`)
plus the fast-path threshold.

An input record (`<char>` element of `ucd.all.flat.xml`) is modelled by
`CharEntry`: its raw `ea` attribute (a string), its optional parsed code
point (`c.get('cp')` followed by the falsy test and `int(cp, 16)`; `none`
stands for an absent or empty `cp` attribute), and its optional `ExtPict`
attribute.  Failure of the `assert` in `get_ranges` (and the `IndexError`
of `merge_ranges` on an empty list) is modelled by `Option`.
-/

structure Range where
  width : String
  start : Nat
  «end» : Nat
deriving DecidableEq

structure CharEntry where
  ea : String
  cp : Option Nat
  extPict : Option String
deriving DecidableEq

/-- Normalization of the raw `ea` value, mirroring the source exactly:
`if ea in ('Na', 'H'): ea = 'N'` is tuple membership, while
`if ea in ('F'): ea = 'W'` is a *substring* test of the string `'F'`
(the tuple parenthesis has no comma), hence it is true for `'F'` and for
the empty string. -/
def normalizeEa (ea : String) : String :=
  let ea1 := if ea = "Na" ∨ ea = "H" then "N" else ea
  if ea1 = "" ∨ ea1 = "F" then "W" else ea1

/-- The effective width class of a code-point-bearing record: the normalized
`ea`, overridden to `'W'` when `emoji_as_wide` is set and the record carries
`ExtPict='Y'`. -/
def eff_class (emoji_as_wide : Bool) (c : CharEntry) : String :=
  if emoji_as_wide then
    (if c.extPict = some "Y" then "W" else normalizeEa c.ea)
  else normalizeEa c.ea

/-- The loop of `get_ranges`: `ranges` is the accumulated output list and
`range` the current accumulator Range.  Each record is normalized, the
`assert ea in ('N', 'A', 'W')` is checked (failure gives `none`), records
without a code point are skipped, and the accumulator is either extended
(`range._replace(end=cp)`) or closed and restarted at `(ea, cp, cp)`. -/
def get_ranges_go (emoji_as_wide : Bool) :
    List CharEntry → List Range → Range → Option (List Range)
  | [], ranges, range => some (ranges ++ [range])
  | ⟨ea, none, _⟩ :: cs, ranges, range =>
    if normalizeEa ea = "N" ∨ normalizeEa ea = "A" ∨ normalizeEa ea = "W" then
      get_ranges_go emoji_as_wide cs ranges range
    else
      none
  | ⟨ea, some cp, pict⟩ :: cs, ranges, range =>
    if normalizeEa ea = "N" ∨ normalizeEa ea = "A" ∨ normalizeEa ea = "W" then
      if eff_class emoji_as_wide ⟨ea, some cp, pict⟩ ≠ range.width then
        get_ranges_go emoji_as_wide cs (ranges ++ [range])
          ⟨eff_class emoji_as_wide ⟨ea, some cp, pict⟩, cp, cp⟩
      else
        get_ranges_go emoji_as_wide cs ranges { range with «end» := cp }
    else
      none

/-- `get_ranges`: fold the record stream starting from the sentinel
accumulator `Range('N', 0, 0)`; the final accumulator is appended at the
end. -/
def get_ranges (chars : List CharEntry) (emoji_as_wide : Bool) : Option (List Range) :=
  get_ranges_go emoji_as_wide chars [] ⟨"N", 0, 0⟩

/-- The loop of `merge_ranges`: `res` is the accumulated output, `range` the
current accumulator.  Note the loop runs over the *whole* input list,
including the element the accumulator was initialized to. -/
def merge_ranges_go (is_same_width : Range → Range → Bool) :
    List Range → List Range → Range → List Range
  | [], res, range => res ++ [range]
  | r :: rs, res, range =>
    if is_same_width r range then
      merge_ranges_go is_same_width rs res { range with «end» := r.«end» }
    else
      merge_ranges_go is_same_width rs (res ++ [range]) r

/-- `merge_ranges`: `range = ranges[0]` raises `IndexError` on an empty
list (modelled by `none`); otherwise the fold above is run over the whole
list. -/
def merge_ranges (ranges : List Range) (is_same_width : Range → Range → Bool) :
    Option (List Range) :=
  match ranges with
  | [] => none
  | r0 :: _ => some (merge_ranges_go is_same_width ranges [] r0)

/-- `skip_ranges`: keep the Ranges whose width is not in `width_skipped`. -/
def skip_ranges (ranges : List Range) (width_skipped : List String) : List Range :=
  ranges.filter (fun r => decide (r.width ∉ width_skipped))

/-- The local `is_same_width` of `gen_ambigous`. -/
def ambiguous_is_same_width (r1 r2 : Range) : Bool :=
  if r1.width = "N" then decide (r2.width = "N")
  else decide (r2.width = "A" ∨ r2.width = "W")

/-- The local `is_same_width` of `gen_wide`. -/
def wide_is_same_width (r1 r2 : Range) : Bool :=
  if r1.width = "N" ∨ r1.width = "A" then decide (r2.width = "N" ∨ r2.width = "A")
  else decide (r2.width = "W")

/-- The RangeSet serialized by `gen_ambigous`: merge `ranges[1:]` under the
ambiguous policy, then drop Narrow ranges. -/
def gen_ambigous_ranges (ranges : List Range) : Option (List Range) :=
  (merge_ranges (ranges.drop 1) ambiguous_is_same_width).map
    (fun rs => skip_ranges rs ["N"])

/-- The RangeSet serialized by `gen_wide`: merge `ranges[1:]` under the wide
policy, then drop Narrow and Ambiguous ranges. -/
def gen_wide_ranges (ranges : List Range) : Option (List Range) :=
  (merge_ranges (ranges.drop 1) wide_is_same_width).map
    (fun rs => skip_ranges rs ["N", "A"])

/-- The fast-path threshold written by `gen_header`:
`f"   if (g <= 0x{range.end:X})"`. -/
def gen_header_threshold (range : Range) : Nat := range.«end»

/-- `gen_c` passes `ranges[0]` to `gen_header`; an empty list would raise
`IndexError`. -/
def gen_c_threshold : List Range → Option Nat
  | [] => none
  | range :: _ => some (gen_header_threshold range)

/-- One emitted `case` line of a generated dispatch table: either a single
match value (`case 0xS:`) or an inclusive bounded match
(`case 0xS ... 0xE:`), each with or without the trailing
`EINA_FALLTHROUGH;` continuation marker. -/
inductive CaseLine where
  | single (cp : Nat) (fall : Bool)
  | span (lo hi : Nat) (fall : Bool)
deriving DecidableEq

/-- Whether a case line carries the continuation marker. -/
def line_ft : CaseLine → Bool
  | .single _ f => f
  | .span _ _ f => f

/-- The emission loop shared by `gen_ambigous` and `gen_wide`:
`fallthrough` starts as the marker (`true`), skipped widths `continue`,
the marker is cleared at index `len(ranges) - 1`, and each emitted line is
a single match when `r.start == r.end`, else a bounded match. -/
def emit_cases_go (width_skipped : List String) (n : Nat) :
    Nat → Bool → List Range → List CaseLine
  | _, _, [] => []
  | idx, fall, r :: rs =>
    if r.width ∈ width_skipped then
      emit_cases_go width_skipped n (idx + 1) fall rs
    else
      (if r.start = r.«end» then
        CaseLine.single r.start (if idx = n - 1 then false else fall)
       else
        CaseLine.span r.start r.«end» (if idx = n - 1 then false else fall)) ::
      emit_cases_go width_skipped n (idx + 1) (if idx = n - 1 then false else fall) rs

/-- The case lines written by `gen_ambigous`. -/
def gen_ambigous_lines (ranges : List Range) : Option (List CaseLine) :=
  (merge_ranges (ranges.drop 1) ambiguous_is_same_width).map
    (fun m =>
      emit_cases_go ["N"] (skip_ranges m ["N"]).length 0 true (skip_ranges m ["N"]))

/-- The case lines written by `gen_wide`. -/
def gen_wide_lines (ranges : List Range) : Option (List CaseLine) :=
  (merge_ranges (ranges.drop 1) wide_is_same_width).map
    (fun m =>
      emit_cases_go ["N", "A"] (skip_ranges m ["N", "A"]).length 0 true
        (skip_ranges m ["N", "A"]))

/-- The code points borne by a record stream, in stream order. -/
def cps : List CharEntry → List Nat
  | [] => []
  | ⟨_, none, _⟩ :: cs => cps cs
  | ⟨_, some p, _⟩ :: cs => p :: cps cs

/-- Spec-side definition (§4.2 fold algorithm, for the refinement claim):
start with the accumulator equal to the first Range and process only the
subsequent Ranges; on `is_same_width(r, accumulator)` widen the
accumulator's end to `r.end`, else emit the accumulator and restart at
`r`. -/
def spec_merge_fold (is_same_width : Range → Range → Bool) :
    List Range → Range → List Range
  | [], acc => [acc]
  | r :: rs, acc =>
    if is_same_width r acc then
      spec_merge_fold is_same_width rs { acc with «end» := r.«end» }
    else
      acc :: spec_merge_fold is_same_width rs r

/-- Spec-side merge: accumulator = first Range, fold over the rest. -/
def spec_merge (is_same_width : Range → Range → Bool) :
    List Range → Option (List Range)
  | [] => none
  | r :: rs => some (spec_merge_fold is_same_width rs r)

/-- Spec-side description of a dispatch table (§4.3): every entry but the
last carries the continuation marker, the last carries none; a
single-code-point Range is a single match value, a multi-point Range an
inclusive bounded match. -/
def spec_case_lines : List Range → List CaseLine
  | [] => []
  | [r] =>
    [if r.start = r.«end» then CaseLine.single r.start false
     else CaseLine.span r.start r.«end» false]
  | r :: rs =>
    (if r.start = r.«end» then CaseLine.single r.start true
     else CaseLine.span r.start r.«end» true) :: spec_case_lines rs

/-! ### Helper lemmas about `merge_ranges` -/

theorem merge_ranges_go_eq_fold (is_same_width : Range → Range → Bool) :
    ∀ (l res : List Range) (cur : Range),
    merge_ranges_go is_same_width l res cur =
      res ++ spec_merge_fold is_same_width l cur := by
  intro l
  induction l with
  | nil => intro res cur; rfl
  | cons r rs ih =>
    intro res cur
    simp only [merge_ranges_go, spec_merge_fold]
    by_cases h : is_same_width r cur = true
    · rw [if_pos h, if_pos h, ih]
    · rw [if_neg h, if_neg h, ih]
      simp

theorem spec_merge_fold_head (is_same_width : Range → Range → Bool) :
    ∀ (l : List Range) (cur : Range),
    ∃ e rest, spec_merge_fold is_same_width l cur = { cur with «end» := e } :: rest := by
  intro l
  induction l with
  | nil => intro cur; exact ⟨cur.«end», [], rfl⟩
  | cons r rs ih =>
    intro cur
    simp only [spec_merge_fold]
    by_cases h : is_same_width r cur = true
    · rw [if_pos h]
      obtain ⟨e, rest, heq⟩ := ih { cur with «end» := r.«end» }
      exact ⟨e, rest, heq⟩
    · rw [if_neg h]
      exact ⟨cur.«end», _, rfl⟩

theorem spec_merge_fold_prov (is_same_width : Range → Range → Bool) (P : Range → Prop)
    (hP : ∀ r e, P r → P { r with «end» := e }) :
    ∀ (l : List Range) (cur : Range), P cur → (∀ r ∈ l, P r) →
    ∀ m ∈ spec_merge_fold is_same_width l cur, P m := by
  intro l
  induction l with
  | nil =>
    intro cur hcur _ m hm
    simp only [spec_merge_fold, List.mem_singleton] at hm
    subst hm; exact hcur
  | cons r rs ih =>
    intro cur hcur hl m hm
    simp only [spec_merge_fold] at hm
    by_cases h : is_same_width r cur = true
    · rw [if_pos h] at hm
      exact ih _ (hP cur r.«end» hcur) (fun x hx => hl x (List.mem_cons_of_mem _ hx)) m hm
    · rw [if_neg h] at hm
      rcases List.mem_cons.mp hm with rfl | hm
      · exact hcur
      · exact ih _ (hl r (List.mem_cons_self _ _))
          (fun x hx => hl x (List.mem_cons_of_mem _ hx)) m hm

theorem spec_merge_fold_chain (is_same_width : Range → Range → Bool)
    (hw : ∀ a e b, is_same_width { a with «end» := e } b = is_same_width a b) :
    ∀ (l : List Range) (cur : Range),
    List.Chain' (fun a b => is_same_width b a = false)
      (spec_merge_fold is_same_width l cur) := by
  intro l
  induction l with
  | nil => intro cur; simp [spec_merge_fold]
  | cons r rs ih =>
    intro cur
    simp only [spec_merge_fold]
    by_cases h : is_same_width r cur = true
    · rw [if_pos h]; exact ih _
    · rw [if_neg h]
      have h' : is_same_width r cur = false := by
        revert h; cases is_same_width r cur <;> simp
      obtain ⟨e, rest, heq⟩ := spec_merge_fold_head is_same_width rs r
      rw [heq, List.chain'_cons]
      refine ⟨?_, ?_⟩
      · rw [hw]; exact h'
      · rw [← heq]; exact ih r

theorem chain_imp_of_mem {α : Type} {R S : α → α → Prop} :
    ∀ (l : List α), (∀ a ∈ l, ∀ b ∈ l, R a b → S a b) →
    List.Chain' R l → List.Chain' S l := by
  intro l
  induction l with
  | nil => intro _ _; exact List.chain'_nil
  | cons a l ih =>
    intro himp hch
    cases l with
    | nil => simp
    | cons b l2 =>
      rw [List.chain'_cons] at hch ⊢
      exact ⟨himp a (by simp) b (by simp) hch.1,
        ih (fun x hx y hy h =>
          himp x (List.mem_cons_of_mem _ hx) y (List.mem_cons_of_mem _ hy) h) hch.2⟩

theorem pairwise_ranges_unique :
    ∀ (l : List Range), List.Pairwise (fun a b => a.«end» < b.start) l →
    ∀ (p : Nat), ∀ r1 ∈ l, ∀ r2 ∈ l,
    r1.start ≤ p → p ≤ r1.«end» → r2.start ≤ p → p ≤ r2.«end» → r1 = r2 := by
  intro l
  induction l with
  | nil => intro _ p r1 h1; exact absurd h1 (List.not_mem_nil _)
  | cons a l ih =>
    intro hpw p r1 h1 r2 h2 hs1 he1 hs2 he2
    rw [List.pairwise_cons] at hpw
    rcases List.mem_cons.mp h1 with he | hm1
    · rcases List.mem_cons.mp h2 with hf | hm2
      · rw [he, hf]
      · subst he
        exact absurd (lt_of_lt_of_le (hpw.1 r2 hm2) hs2) (not_lt.mpr he1)
    · rcases List.mem_cons.mp h2 with hf | hm2
      · subst hf
        exact absurd (lt_of_lt_of_le (hpw.1 r1 hm1) hs1) (not_lt.mpr he2)
      · exact ih hpw.2 p r1 hm1 r2 hm2 hs1 he1 hs2 he2

theorem spec_merge_fold_cover (is_same_width : Range → Range → Bool)
    (hw : ∀ (a b : Range) (e : Nat),
      is_same_width a { b with «end» := e } = is_same_width a b) :
    ∀ (l : List Range) (cur : Range),
    List.Pairwise (fun a b => a.«end» < b.start) (cur :: l) →
    (∀ r ∈ cur :: l, r.start ≤ r.«end») →
    ∃ first rest,
      spec_merge_fold is_same_width l cur = first :: rest ∧
      first.start = cur.start ∧ first.width = cur.width ∧ cur.«end» ≤ first.«end» ∧
      ∀ r ∈ cur :: l, ∃ m ∈ first :: rest,
        m.start ≤ r.start ∧ r.«end» ≤ m.«end» ∧
        (m.width = r.width ∨ is_same_width r m = true) := by
  intro l
  induction l with
  | nil =>
    intro cur _ _
    refine ⟨cur, [], rfl, rfl, rfl, le_refl _, ?_⟩
    intro r hr
    rw [List.mem_singleton] at hr; subst hr
    exact ⟨r, List.mem_singleton_self r, le_refl _, le_refl _, Or.inl rfl⟩
  | cons r rs ih =>
    intro cur hpw hse
    rw [List.pairwise_cons] at hpw
    obtain ⟨hcur_lt, hpw2⟩ := hpw
    have hcr : cur.«end» < r.start := hcur_lt r (List.mem_cons_self _ _)
    have hcse : cur.start ≤ cur.«end» := hse cur (List.mem_cons_self _ _)
    have hrse : r.start ≤ r.«end» := hse r (List.mem_cons_of_mem _ (List.mem_cons_self _ _))
    simp only [spec_merge_fold]
    by_cases h : is_same_width r cur = true
    · rw [if_pos h]
      have hpw' : List.Pairwise (fun a b => a.«end» < b.start)
          ({ cur with «end» := r.«end» } :: rs) := by
        rw [List.pairwise_cons]
        rw [List.pairwise_cons] at hpw2
        exact ⟨fun x hx => hpw2.1 x hx, hpw2.2⟩
      have hse' : ∀ x ∈ { cur with «end» := r.«end» } :: rs, x.start ≤ x.«end» := by
        intro x hx
        rcases List.mem_cons.mp hx with hx | hx
        · subst hx
          exact le_trans hcse (le_trans (le_of_lt hcr) hrse)
        · exact hse x (List.mem_cons_of_mem _ (List.mem_cons_of_mem _ hx))
      obtain ⟨first, rest, heq, hfs, hfw, hfe, hcov⟩ :=
        ih { cur with «end» := r.«end» } hpw' hse'
      refine ⟨first, rest, heq, hfs, hfw, ?_, ?_⟩
      · exact le_trans (le_of_lt hcr) (le_trans hrse hfe)
      · have hfirst : first = { cur with «end» := first.«end» } := by
          obtain ⟨w, s, e⟩ := first
          simp only [Range.mk.injEq]
          exact ⟨hfw, hfs, trivial⟩
        intro x hx
        rcases List.mem_cons.mp hx with hx | hx
        · -- x = cur
          subst hx
          refine ⟨first, List.mem_cons_self _ _, le_of_eq hfs, ?_, Or.inl hfw⟩
          exact le_trans (le_of_lt hcr) (le_trans hrse hfe)
        rcases List.mem_cons.mp hx with hx | hx
        · -- x = r
          subst hx
          refine ⟨first, List.mem_cons_self _ _, ?_, hfe, Or.inr ?_⟩
          · rw [hfs]; exact le_trans hcse (le_of_lt hcr)
          · rw [hfirst, hw]; exact h
        · -- x ∈ rs
          exact hcov x (List.mem_cons_of_mem _ hx)
    · rw [if_neg h]
      have hse' : ∀ x ∈ r :: rs, x.start ≤ x.«end» :=
        fun x hx => hse x (List.mem_cons_of_mem _ hx)
      obtain ⟨first, rest, heq, hfs, hfw, hfe, hcov⟩ := ih r hpw2 hse'
      refine ⟨cur, first :: rest, by rw [heq], rfl, rfl, le_refl _, ?_⟩
      intro x hx
      rcases List.mem_cons.mp hx with hx | hx
      · subst hx
        exact ⟨x, List.mem_cons_self _ _, le_refl _, le_refl _, Or.inl rfl⟩
      · obtain ⟨m, hm, hprops⟩ := hcov x hx
        exact ⟨m, List.mem_cons_of_mem _ hm, hprops⟩

/-! ### Facts about the two concrete policy predicates -/

theorem amb_refl (r : Range)
    (h : r.width = "N" ∨ r.width = "A" ∨ r.width = "W") :
    ambiguous_is_same_width r r = true := by
  rcases h with h | h | h <;> simp [ambiguous_is_same_width, h]

theorem wide_refl (r : Range)
    (h : r.width = "N" ∨ r.width = "A" ∨ r.width = "W") :
    wide_is_same_width r r = true := by
  rcases h with h | h | h <;> simp [wide_is_same_width, h]

theorem amb_symm (r1 r2 : Range)
    (h1 : r1.width = "N" ∨ r1.width = "A" ∨ r1.width = "W")
    (h2 : r2.width = "N" ∨ r2.width = "A" ∨ r2.width = "W") :
    ambiguous_is_same_width r1 r2 = ambiguous_is_same_width r2 r1 := by
  rcases h1 with h1 | h1 | h1 <;> rcases h2 with h2 | h2 | h2 <;>
    simp [ambiguous_is_same_width, h1, h2]

theorem wide_symm (r1 r2 : Range)
    (h1 : r1.width = "N" ∨ r1.width = "A" ∨ r1.width = "W")
    (h2 : r2.width = "N" ∨ r2.width = "A" ∨ r2.width = "W") :
    wide_is_same_width r1 r2 = wide_is_same_width r2 r1 := by
  rcases h1 with h1 | h1 | h1 <;> rcases h2 with h2 | h2 | h2 <;>
    simp [wide_is_same_width, h1, h2]

theorem merge_ranges_eq_fold (is_same_width : Range → Range → Bool)
    (c0 : Range) (rest : List Range)
    (hrefl : is_same_width c0 c0 = true) :
    merge_ranges (c0 :: rest) is_same_width =
      some (spec_merge_fold is_same_width rest c0) := by
  show some (merge_ranges_go is_same_width (c0 :: rest) [] c0) = _
  simp only [merge_ranges_go, hrefl, if_true]
  rw [merge_ranges_go_eq_fold]
  rfl

/-! ### Helper lemmas about `get_ranges` -/

theorem eff_class_naw (eaw : Bool) (c : CharEntry)
    (hn : normalizeEa c.ea = "N" ∨ normalizeEa c.ea = "A" ∨ normalizeEa c.ea = "W") :
    eff_class eaw c = "N" ∨ eff_class eaw c = "A" ∨ eff_class eaw c = "W" := by
  unfold eff_class
  cases eaw with
  | false => simpa using hn
  | true =>
    by_cases hp : c.extPict = some "Y"
    · simp [hp]
    · simpa [hp] using hn

theorem get_ranges_go_widths (eaw : Bool) :
    ∀ (cs : List CharEntry) (acc : List Range) (cur : Range) (rs : List Range),
    (∀ a ∈ acc, a.width = "N" ∨ a.width = "A" ∨ a.width = "W") →
    (cur.width = "N" ∨ cur.width = "A" ∨ cur.width = "W") →
    get_ranges_go eaw cs acc cur = some rs →
    ∀ r ∈ rs, r.width = "N" ∨ r.width = "A" ∨ r.width = "W" := by
  intro cs
  induction cs with
  | nil =>
    intro acc cur rs hacc hcur h
    simp only [get_ranges_go, Option.some.injEq] at h
    subst h
    intro r hr
    rcases List.mem_append.mp hr with hr | hr
    · exact hacc r hr
    · rw [List.mem_singleton] at hr; subst hr; exact hcur
  | cons c cs ih =>
    intro acc cur rs hacc hcur h
    obtain ⟨ea, cpo, pict⟩ := c
    cases cpo with
    | none =>
      simp only [get_ranges_go] at h
      by_cases hn : normalizeEa ea = "N" ∨ normalizeEa ea = "A" ∨ normalizeEa ea = "W"
      · rw [if_pos hn] at h
        exact ih acc cur rs hacc hcur h
      · rw [if_neg hn] at h
        exact Option.noConfusion h
    | some p =>
      simp only [get_ranges_go] at h
      by_cases hn : normalizeEa ea = "N" ∨ normalizeEa ea = "A" ∨ normalizeEa ea = "W"
      · rw [if_pos hn] at h
        by_cases hne : eff_class eaw ⟨ea, some p, pict⟩ ≠ cur.width
        · rw [if_pos hne] at h
          refine ih _ _ rs ?_ ?_ h
          · intro a ha
            rcases List.mem_append.mp ha with ha | ha
            · exact hacc a ha
            · rw [List.mem_singleton] at ha; subst ha; exact hcur
          · exact eff_class_naw eaw ⟨ea, some p, pict⟩ hn
        · rw [if_neg hne] at h
          exact ih acc { cur with «end» := p } rs hacc hcur h
      · rw [if_neg hn] at h
        exact Option.noConfusion h

theorem get_ranges_widths (chars : List CharEntry) (eaw : Bool) (rs : List Range)
    (h : get_ranges chars eaw = some rs) :
    ∀ r ∈ rs, r.width = "N" ∨ r.width = "A" ∨ r.width = "W" :=
  get_ranges_go_widths eaw chars [] ⟨"N", 0, 0⟩ rs (by simp) (Or.inl rfl) h

theorem get_ranges_go_head (eaw : Bool) :
    ∀ (cs : List CharEntry) (acc : List Range) (cur : Range) (rs : List Range),
    get_ranges_go eaw cs acc cur = some rs →
    ∃ first rest, rs = acc ++ first :: rest ∧
      first.width = cur.width ∧ first.start = cur.start := by
  intro cs
  induction cs with
  | nil =>
    intro acc cur rs h
    simp only [get_ranges_go, Option.some.injEq] at h
    exact ⟨cur, [], h.symm, rfl, rfl⟩
  | cons c cs ih =>
    intro acc cur rs h
    obtain ⟨ea, cpo, pict⟩ := c
    cases cpo with
    | none =>
      simp only [get_ranges_go] at h
      by_cases hn : normalizeEa ea = "N" ∨ normalizeEa ea = "A" ∨ normalizeEa ea = "W"
      · rw [if_pos hn] at h
        exact ih acc cur rs h
      · rw [if_neg hn] at h
        exact Option.noConfusion h
    | some p =>
      simp only [get_ranges_go] at h
      by_cases hn : normalizeEa ea = "N" ∨ normalizeEa ea = "A" ∨ normalizeEa ea = "W"
      · rw [if_pos hn] at h
        by_cases hne : eff_class eaw ⟨ea, some p, pict⟩ ≠ cur.width
        · rw [if_pos hne] at h
          obtain ⟨f2, r2, heq, _, _⟩ := ih _ _ rs h
          refine ⟨cur, f2 :: r2, ?_, rfl, rfl⟩
          rw [heq]; simp
        · rw [if_neg hne] at h
          obtain ⟨f2, r2, heq, hw, hs⟩ := ih _ _ rs h
          exact ⟨f2, r2, heq, hw, hs⟩
      · rw [if_neg hn] at h
        exact Option.noConfusion h

theorem get_ranges_go_allN (eaw : Bool) :
    ∀ (cs : List CharEntry) (acc : List Range) (cur : Range),
    (∀ c ∈ cs, normalizeEa c.ea = "N" ∨ normalizeEa c.ea = "A" ∨ normalizeEa c.ea = "W") →
    (∀ c ∈ cs, ∀ p, c.cp = some p → eff_class eaw c = cur.width) →
    ∃ e, get_ranges_go eaw cs acc cur = some (acc ++ [{ cur with «end» := e }]) := by
  intro cs
  induction cs with
  | nil =>
    intro acc cur _ _
    exact ⟨cur.«end», rfl⟩
  | cons c cs ih =>
    intro acc cur hnorm heff
    obtain ⟨ea, cpo, pict⟩ := c
    have hn := hnorm _ (List.mem_cons_self _ _)
    cases cpo with
    | none =>
      simp only [get_ranges_go]
      rw [if_pos hn]
      exact ih acc cur (fun x hx => hnorm x (List.mem_cons_of_mem _ hx))
        (fun x hx => heff x (List.mem_cons_of_mem _ hx))
    | some p =>
      simp only [get_ranges_go]
      rw [if_pos hn]
      have he : eff_class eaw ⟨ea, some p, pict⟩ = cur.width :=
        heff _ (List.mem_cons_self _ _) p rfl
      rw [if_neg (by simp [he])]
      obtain ⟨e, hgo⟩ := ih acc { cur with «end» := p }
        (fun x hx => hnorm x (List.mem_cons_of_mem _ hx))
        (fun x hx => heff x (List.mem_cons_of_mem _ hx))
      exact ⟨e, hgo⟩

theorem get_ranges_go_spec (eaw : Bool) :
    ∀ (cs : List CharEntry) (acc : List Range) (cur : Range),
    (∀ c ∈ cs, normalizeEa c.ea = "N" ∨ normalizeEa c.ea = "A" ∨ normalizeEa c.ea = "W") →
    List.Pairwise (· < ·) (cps cs) →
    (∀ p ∈ cps cs, cur.«end» < p) →
    cur.start ≤ cur.«end» →
    ∃ first rest,
      get_ranges_go eaw cs acc cur = some (acc ++ first :: rest) ∧
      first.start = cur.start ∧ first.width = cur.width ∧ cur.«end» ≤ first.«end» ∧
      List.Pairwise (fun a b => a.«end» < b.start) (first :: rest) ∧
      (∀ r ∈ first :: rest, r.start ≤ r.«end») ∧
      List.Chain' (fun a b => a.width ≠ b.width) (first :: rest) ∧
      (∀ c ∈ cs, ∀ p, c.cp = some p →
        ∃ r ∈ first :: rest, r.start ≤ p ∧ p ≤ r.«end» ∧ r.width = eff_class eaw c) := by
  intro cs
  induction cs with
  | nil =>
    intro acc cur _ _ _ hse
    refine ⟨cur, [], rfl, rfl, rfl, le_refl _, by simp, ?_, by simp, by simp⟩
    intro r hr
    rw [List.mem_singleton] at hr; subst hr; exact hse
  | cons c cs ih =>
    intro acc cur hnorm hincr hfut hse
    obtain ⟨ea, cpo, pict⟩ := c
    have hn := hnorm _ (List.mem_cons_self _ _)
    have hnorm' : ∀ x ∈ cs, normalizeEa x.ea = "N" ∨ normalizeEa x.ea = "A" ∨
        normalizeEa x.ea = "W" := fun x hx => hnorm x (List.mem_cons_of_mem _ hx)
    cases cpo with
    | none =>
      simp only [get_ranges_go]
      rw [if_pos hn]
      have hcps : cps (⟨ea, none, pict⟩ :: cs) = cps cs := rfl
      rw [hcps] at hincr hfut
      obtain ⟨first, rest, hgo, h1, h2, h3, h4, h5, h6, hcov⟩ :=
        ih acc cur hnorm' hincr hfut hse
      refine ⟨first, rest, hgo, h1, h2, h3, h4, h5, h6, ?_⟩
      intro x hx p hp
      rcases List.mem_cons.mp hx with hx | hx
      · subst hx; exact Option.noConfusion hp
      · exact hcov x hx p hp
    | some q =>
      have hcps : cps (⟨ea, some q, pict⟩ :: cs) = q :: cps cs := rfl
      rw [hcps] at hincr hfut
      rw [List.pairwise_cons] at hincr
      have hq : cur.«end» < q := hfut q (List.mem_cons_self _ _)
      have hfut' : ∀ p ∈ cps cs, q < p := fun p hp => hincr.1 p hp
      simp only [get_ranges_go]
      rw [if_pos hn]
      by_cases hne : eff_class eaw ⟨ea, some q, pict⟩ ≠ cur.width
      · -- the effective class changes: close `cur`, restart at (eff, q, q)
        rw [if_pos hne]
        obtain ⟨first, rest, hgo, h1, h2, h3, h4, h5, h6, hcov⟩ :=
          ih (acc ++ [cur]) ⟨eff_class eaw ⟨ea, some q, pict⟩, q, q⟩ hnorm'
            hincr.2 hfut' (le_refl q)
        have hfe : (q : Nat) ≤ first.«end» := h3
        refine ⟨cur, first :: rest, ?_, rfl, rfl, le_refl _, ?_, ?_, ?_, ?_⟩
        · rw [hgo]; simp
        · -- Pairwise
          rw [List.pairwise_cons]
          refine ⟨?_, h4⟩
          intro x hx
          rcases List.mem_cons.mp hx with hx | hx
          · subst hx; rw [h1]; exact hq
          · rw [List.pairwise_cons] at h4
            have := h4.1 x hx
            calc cur.«end» < q := hq
              _ ≤ first.«end» := hfe
              _ < x.start := this
        · -- start ≤ end
          intro x hx
          rcases List.mem_cons.mp hx with hx | hx
          · subst hx; exact hse
          · exact h5 x hx
        · -- adjacent widths differ
          rw [List.chain'_cons']
          refine ⟨?_, h6⟩
          intro y hy
          rw [List.head?_cons, Option.mem_some_iff] at hy
          subst hy
          rw [h2]
          intro hcontra
          exact hne hcontra.symm
        · -- coverage
          intro x hx p hp
          rcases List.mem_cons.mp hx with hx | hx
          · subst hx
            rw [Option.some.injEq] at hp
            subst hp
            refine ⟨first, List.mem_cons_of_mem _ (List.mem_cons_self _ _), ?_, hfe, h2⟩
            rw [h1]
          · obtain ⟨r, hr, hprops⟩ := hcov x hx p hp
            exact ⟨r, List.mem_cons_of_mem _ hr, hprops⟩
      · -- same effective class: extend `cur` to q
        rw [if_neg hne]
        rw [not_ne_iff] at hne
        have hfut2 : ∀ p ∈ cps cs, ({ cur with «end» := q } : Range).«end» < p := hfut'
        obtain ⟨first, rest, hgo, h1, h2, h3, h4, h5, h6, hcov⟩ :=
          ih acc { cur with «end» := q } hnorm' hincr.2 hfut2
            (le_trans hse (le_of_lt hq))
        have hfe : (q : Nat) ≤ first.«end» := h3
        refine ⟨first, rest, hgo, h1, h2, le_trans (le_of_lt hq) hfe, h4, h5, h6, ?_⟩
        intro x hx p hp
        rcases List.mem_cons.mp hx with hx | hx
        · subst hx
          rw [Option.some.injEq] at hp
          subst hp
          refine ⟨first, List.mem_cons_self _ _, ?_, hfe, ?_⟩
          · rw [h1]
            exact le_trans hse (le_of_lt hq)
          · rw [h2, hne]
        · exact hcov x hx p hp

theorem get_ranges_go_spec0 (eaw : Bool) :
    ∀ (cs : List CharEntry) (acc : List Range),
    (∀ c ∈ cs, normalizeEa c.ea = "N" ∨ normalizeEa c.ea = "A" ∨ normalizeEa c.ea = "W") →
    List.Pairwise (· < ·) (cps cs) →
    (∀ c ∈ cs, c.cp = some 0 → eff_class eaw c = "N") →
    ∃ first rest,
      get_ranges_go eaw cs acc ⟨"N", 0, 0⟩ = some (acc ++ first :: rest) ∧
      first.start = 0 ∧ first.width = "N" ∧
      List.Pairwise (fun a b => a.«end» < b.start) (first :: rest) ∧
      (∀ r ∈ first :: rest, r.start ≤ r.«end») ∧
      List.Chain' (fun a b => a.width ≠ b.width) (first :: rest) ∧
      (∀ c ∈ cs, ∀ p, c.cp = some p →
        ∃ r ∈ first :: rest, r.start ≤ p ∧ p ≤ r.«end» ∧ r.width = eff_class eaw c) := by
  intro cs
  induction cs with
  | nil =>
    intro acc _ _ _
    exact ⟨⟨"N", 0, 0⟩, [], rfl, rfl, rfl, by simp, by simp, by simp, by simp⟩
  | cons c cs ih =>
    intro acc hnorm hincr hzero
    obtain ⟨ea, cpo, pict⟩ := c
    have hn := hnorm _ (List.mem_cons_self _ _)
    have hnorm' : ∀ x ∈ cs, normalizeEa x.ea = "N" ∨ normalizeEa x.ea = "A" ∨
        normalizeEa x.ea = "W" := fun x hx => hnorm x (List.mem_cons_of_mem _ hx)
    have hzero' : ∀ x ∈ cs, x.cp = some 0 → eff_class eaw x = "N" :=
      fun x hx => hzero x (List.mem_cons_of_mem _ hx)
    cases cpo with
    | none =>
      simp only [get_ranges_go]
      rw [if_pos hn]
      have hcps : cps (⟨ea, none, pict⟩ :: cs) = cps cs := rfl
      rw [hcps] at hincr
      obtain ⟨first, rest, hgo, h1, h2, h3, h4, h5, hcov⟩ := ih acc hnorm' hincr hzero'
      refine ⟨first, rest, hgo, h1, h2, h3, h4, h5, ?_⟩
      intro x hx p hp
      rcases List.mem_cons.mp hx with hx | hx
      · subst hx; exact Option.noConfusion hp
      · exact hcov x hx p hp
    | some q =>
      have hcps : cps (⟨ea, some q, pict⟩ :: cs) = q :: cps cs := rfl
      rw [hcps] at hincr
      rw [List.pairwise_cons] at hincr
      simp only [get_ranges_go]
      rw [if_pos hn]
      by_cases hq0 : q = 0
      · -- code point 0: by hypothesis the effective class is Narrow
        subst hq0
        have heff : eff_class eaw ⟨ea, some 0, pict⟩ = "N" :=
          hzero _ (List.mem_cons_self _ _) rfl
        rw [if_neg (by simp [heff])]
        obtain ⟨first, rest, hgo, h1, h2, h3, h4, h5, hcov⟩ := ih acc hnorm' hincr.2 hzero'
        refine ⟨first, rest, hgo, h1, h2, h3, h4, h5, ?_⟩
        intro x hx p hp
        rcases List.mem_cons.mp hx with hx | hx
        · subst hx
          rw [Option.some.injEq] at hp
          subst hp
          refine ⟨first, List.mem_cons_self _ _, ?_, Nat.zero_le _, ?_⟩
          · rw [h1]
          · rw [h2, heff]
        · exact hcov x hx p hp
      · have hq : 0 < q := Nat.pos_of_ne_zero hq0
        by_cases heffN : eff_class eaw ⟨ea, some q, pict⟩ = "N"
        · -- still Narrow: the sentinel is extended to q
          rw [if_neg (by simp [heffN])]
          obtain ⟨first, rest, hgo, h1, h2, h3, h4, h5, h6, hcov⟩ :=
            get_ranges_go_spec eaw cs acc ⟨"N", 0, q⟩ hnorm' hincr.2 hincr.1
              (Nat.zero_le q)
          refine ⟨first, rest, hgo, h1, h2, h4, h5, h6, ?_⟩
          intro x hx p hp
          rcases List.mem_cons.mp hx with hx | hx
          · subst hx
            rw [Option.some.injEq] at hp
            subst hp
            refine ⟨first, List.mem_cons_self _ _, ?_, h3, ?_⟩
            · rw [h1]; exact Nat.zero_le _
            · rw [h2, heffN]
          · exact hcov x hx p hp
        · -- non-Narrow class at q > 0: the sentinel is closed as (N, 0, 0)
          rw [if_pos (by simpa using heffN)]
          obtain ⟨first, rest, hgo, h1, h2, h3, h4, h5, h6, hcov⟩ :=
            get_ranges_go_spec eaw cs (acc ++ [⟨"N", 0, 0⟩])
              ⟨eff_class eaw ⟨ea, some q, pict⟩, q, q⟩ hnorm' hincr.2 hincr.1
              (le_refl q)
          refine ⟨⟨"N", 0, 0⟩, first :: rest, ?_, rfl, rfl, ?_, ?_, ?_, ?_⟩
          · rw [hgo]; simp
          · rw [List.pairwise_cons]
            refine ⟨?_, h4⟩
            intro x hx
            rcases List.mem_cons.mp hx with hx | hx
            · subst hx; rw [h1]; exact hq
            · rw [List.pairwise_cons] at h4
              calc (Range.mk "N" 0 0).«end» < q := hq
                _ ≤ first.«end» := h3
                _ < x.start := h4.1 x hx
          · intro x hx
            rcases List.mem_cons.mp hx with hx | hx
            · subst hx; exact le_refl _
            · exact h5 x hx
          · rw [List.chain'_cons']
            refine ⟨?_, h6⟩
            intro y hy
            rw [List.head?_cons, Option.mem_some_iff] at hy
            subst hy
            rw [h2]
            intro hcontra
            exact heffN hcontra.symm
          · intro x hx p hp
            rcases List.mem_cons.mp hx with hx | hx
            · subst hx
              rw [Option.some.injEq] at hp
              subst hp
              refine ⟨first, List.mem_cons_of_mem _ (List.mem_cons_self _ _), ?_, h3, h2⟩
              rw [h1]
            · obtain ⟨r, hr, hprops⟩ := hcov x hx p hp
              exact ⟨r, List.mem_cons_of_mem _ hr, hprops⟩

theorem get_ranges_spec (chars : List CharEntry) (eaw : Bool)
    (hnorm : ∀ c ∈ chars, normalizeEa c.ea = "N" ∨ normalizeEa c.ea = "A" ∨
      normalizeEa c.ea = "W")
    (hincr : List.Pairwise (· < ·) (cps chars))
    (hzero : ∀ c ∈ chars, c.cp = some 0 → eff_class eaw c = "N") :
    ∃ first rest,
      get_ranges chars eaw = some (first :: rest) ∧
      first.start = 0 ∧ first.width = "N" ∧
      List.Pairwise (fun a b => a.«end» < b.start) (first :: rest) ∧
      (∀ r ∈ first :: rest, r.start ≤ r.«end») ∧
      List.Chain' (fun a b => a.width ≠ b.width) (first :: rest) ∧
      (∀ c ∈ chars, ∀ p, c.cp = some p →
        ∃ r ∈ first :: rest, r.start ≤ p ∧ p ≤ r.«end» ∧ r.width = eff_class eaw c) := by
  obtain ⟨first, rest, hgo, hrest⟩ := get_ranges_go_spec0 eaw chars [] hnorm hincr hzero
  refine ⟨first, rest, ?_, hrest⟩
  unfold get_ranges
  rw [hgo]
  simp

/-! ### Helper lemmas about emission and filtering -/

theorem mem_skip_ranges (rs : List Range) (ws : List String) (r : Range) :
    r ∈ skip_ranges rs ws ↔ r ∈ rs ∧ r.width ∉ ws := by
  simp [skip_ranges, List.mem_filter]

theorem emit_cases_go_spec (width_skipped : List String) (n : Nat) :
    ∀ (l : List Range) (idx : Nat), n = idx + l.length →
    (∀ r ∈ l, r.width ∉ width_skipped) →
    emit_cases_go width_skipped n idx true l = spec_case_lines l := by
  intro l
  induction l with
  | nil => intro idx _ _; rfl
  | cons r rs ih =>
    intro idx hn hskip
    simp only [emit_cases_go]
    rw [if_neg (hskip r (List.mem_cons_self _ _))]
    cases rs with
    | nil =>
      simp only [List.length_cons, List.length_nil] at hn
      have hidx : idx = n - 1 := by omega
      rw [if_pos hidx]
      simp [spec_case_lines, emit_cases_go]
    | cons r2 rs2 =>
      simp only [List.length_cons] at hn
      have hidx : ¬(idx = n - 1) := by omega
      rw [if_neg hidx]
      rw [ih (idx + 1) (by simp only [List.length_cons]; omega)
        (fun x hx => hskip x (List.mem_cons_of_mem _ hx))]
      simp [spec_case_lines]

theorem spec_case_lines_ne_nil (r : Range) (rs : List Range) :
    ∃ y ys, spec_case_lines (r :: rs) = y :: ys := by
  cases rs with
  | nil => exact ⟨_, [], rfl⟩
  | cons r2 rs2 => exact ⟨_, _, rfl⟩

theorem spec_case_lines_ft :
    ∀ (l : List Range),
    (∀ x ∈ (spec_case_lines l).dropLast, line_ft x = true) ∧
    (∀ x, (spec_case_lines l).getLast? = some x → line_ft x = false) := by
  intro l
  induction l with
  | nil => exact ⟨by simp [spec_case_lines], by simp [spec_case_lines]⟩
  | cons r rs ih =>
    cases rs with
    | nil =>
      constructor
      · simp [spec_case_lines]
      · intro x hx
        simp only [spec_case_lines, List.getLast?_singleton, Option.some.injEq] at hx
        subst hx
        by_cases h : r.start = r.«end» <;> simp [h, line_ft]
    | cons r2 rs2 =>
      obtain ⟨y, ys, hy⟩ := spec_case_lines_ne_nil r2 rs2
      constructor
      · intro x hx
        simp only [spec_case_lines] at hx
        rw [hy] at hx
        have hdl : ((if r.start = r.«end» then CaseLine.single r.start true
            else CaseLine.span r.start r.«end» true) :: y :: ys).dropLast =
            (if r.start = r.«end» then CaseLine.single r.start true
            else CaseLine.span r.start r.«end» true) :: (y :: ys).dropLast := rfl
        rw [hdl] at hx
        rcases List.mem_cons.mp hx with hx | hx
        · subst hx
          by_cases h : r.start = r.«end» <;> simp [h, line_ft]
        · rw [← hy] at hx
          exact ih.1 x hx
      · intro x hx
        simp only [spec_case_lines] at hx
        rw [hy, List.getLast?_cons_cons, ← hy] at hx
        exact ih.2 x hx

/-! ### Claim theorems -/

/-- C6: extraction aborts with the `assert` if and only if the raw
east-asian-width value fails to normalize into `{N, A, W}` under
`{Na, H} → N` and `F → W`; in particular any raw value outside
`{Na, N, H, A, W, F}` aborts the run.  This is FALSE of the code: because
`ea in ('F')` is a substring test (the tuple is missing its comma), the raw
value `""` — outside `{Na, N, H, A, W, F}` — normalizes to `"W"` and the
run continues, silently classifying the record as Wide, while every other
raw value behaves as the claim says.  The theorem exhibits the failing
record `ea=""` (third conjunct) next to the conforming behaviour of the six
in-set values and of an out-of-set value `"X"`. -/
theorem schema_assert_empty_ea :
    (get_ranges [CharEntry.mk "Na" (some 1) none] false =
      some [Range.mk "N" 0 1]) ∧
    (get_ranges [CharEntry.mk "N" (some 1) none] false =
      some [Range.mk "N" 0 1]) ∧
    (get_ranges [CharEntry.mk "H" (some 1) none] false =
      some [Range.mk "N" 0 1]) ∧
    (get_ranges [CharEntry.mk "A" (some 1) none] false =
      some [Range.mk "N" 0 0, Range.mk "A" 1 1]) ∧
    (get_ranges [CharEntry.mk "W" (some 1) none] false =
      some [Range.mk "N" 0 0, Range.mk "W" 1 1]) ∧
    (get_ranges [CharEntry.mk "F" (some 1) none] false =
      some [Range.mk "N" 0 0, Range.mk "W" 1 1]) ∧
    (get_ranges [CharEntry.mk "X" (some 1) none] false = none) ∧
    (¬("" = "Na" ∨ "" = "N" ∨ "" = "H" ∨ "" = "A" ∨ "" = "W" ∨ "" = "F")) ∧
    (normalizeEa "" = "W") ∧
    (get_ranges [CharEntry.mk "" (some 1) none] false =
      some [Range.mk "N" 0 0, Range.mk "W" 1 1]) := by
  decide

/-- C7: the RangeSet returned by `get_ranges` is always non-empty, its
first Range has width `N` and start `0` (the sentinel accumulator), both
policy pipelines operate only on the tail of the list (replacing the head
by an arbitrary Range does not change their output), and the emitter uses
only the first Range's end. -/
theorem sentinel_first_range (chars : List CharEntry) (eaw : Bool) (rs : List Range)
    (r0' : Range) (hrs : get_ranges chars eaw = some rs) :
    rs ≠ [] ∧
    (rs.headD (Range.mk "" 0 0)).width = "N" ∧
    (rs.headD (Range.mk "" 0 0)).start = 0 ∧
    gen_ambigous_ranges (r0' :: rs.drop 1) = gen_ambigous_ranges rs ∧
    gen_wide_ranges (r0' :: rs.drop 1) = gen_wide_ranges rs ∧
    gen_c_threshold rs = some (rs.headD (Range.mk "" 0 0)).«end» := by
  obtain ⟨first, rest, heq, hw, hs⟩ := get_ranges_go_head eaw chars [] ⟨"N", 0, 0⟩ rs hrs
  rw [List.nil_append] at heq
  subst heq
  exact ⟨by simp, hw, hs, rfl, rfl, rfl⟩

/-- Witness for C7 at a concrete input: the empty stream yields the bare
sentinel RangeSet. -/
theorem sentinel_first_range_witness :
    (get_ranges [] false = some [Range.mk "N" 0 0]) ∧
    ([Range.mk "N" 0 0] ≠ ([] : List Range) ∧
     (([Range.mk "N" 0 0] : List Range).headD (Range.mk "" 0 0)).width = "N" ∧
     (([Range.mk "N" 0 0] : List Range).headD (Range.mk "" 0 0)).start = 0 ∧
     gen_ambigous_ranges (Range.mk "X" 5 7 :: ([Range.mk "N" 0 0] : List Range).drop 1) =
       gen_ambigous_ranges [Range.mk "N" 0 0] ∧
     gen_wide_ranges (Range.mk "X" 5 7 :: ([Range.mk "N" 0 0] : List Range).drop 1) =
       gen_wide_ranges [Range.mk "N" 0 0] ∧
     gen_c_threshold [Range.mk "N" 0 0] =
       some (([Range.mk "N" 0 0] : List Range).headD (Range.mk "" 0 0)).«end») :=
  ⟨by decide, sentinel_first_range [] false [Range.mk "N" 0 0] (Range.mk "X" 5 7) (by decide)⟩

/-- C9: for every non-empty input RangeSet (widths in {N, A, W}, as the
data model requires) and each of the two concrete policy predicates,
`merge_ranges` — which initializes the accumulator to `ranges[0]` and then
folds over the *whole* list — returns exactly the fold described by the
spec, which starts from the first Range and processes only the subsequent
ones; both predicates are reflexive on valid widths, so the redundant
first comparison only rewrites the accumulator's end to itself. -/
theorem merge_refines_fold (l : List Range)
    (hne : l ≠ [])
    (hw : ∀ r ∈ l, r.width = "N" ∨ r.width = "A" ∨ r.width = "W") :
    merge_ranges l ambiguous_is_same_width = spec_merge ambiguous_is_same_width l ∧
    merge_ranges l wide_is_same_width = spec_merge wide_is_same_width l := by
  cases l with
  | nil => exact absurd rfl hne
  | cons c0 rest =>
    have h0 := hw c0 (List.mem_cons_self _ _)
    constructor
    · rw [merge_ranges_eq_fold _ _ _ (amb_refl c0 h0)]; rfl
    · rw [merge_ranges_eq_fold _ _ _ (wide_refl c0 h0)]; rfl

/-- Witness for C9 at a concrete RangeSet. -/
theorem merge_refines_fold_witness :
    (([Range.mk "A" 1 2, Range.mk "W" 3 4] : List Range) ≠ []) ∧
    (∀ r ∈ ([Range.mk "A" 1 2, Range.mk "W" 3 4] : List Range),
      r.width = "N" ∨ r.width = "A" ∨ r.width = "W") ∧
    (merge_ranges [Range.mk "A" 1 2, Range.mk "W" 3 4] ambiguous_is_same_width =
       spec_merge ambiguous_is_same_width [Range.mk "A" 1 2, Range.mk "W" 3 4] ∧
     merge_ranges [Range.mk "A" 1 2, Range.mk "W" 3 4] wide_is_same_width =
       spec_merge wide_is_same_width [Range.mk "A" 1 2, Range.mk "W" 3 4]) :=
  ⟨by decide, by decide,
    merge_refines_fold [Range.mk "A" 1 2, Range.mk "W" 3 4] (by decide) (by decide)⟩

/-- C10: `merge_ranges` fails on an empty list (out-of-bounds `ranges[0]`),
both emitters call it on the extractor's output with the first Range
removed, so the pipeline aborts instead of emitting tables whenever the
pre-merge RangeSet is a single Range — e.g. when no record bears a code
point, or when every code-point-bearing record has effective class
Narrow. -/
theorem pipeline_aborts_single_range (is_same_width : Range → Range → Bool)
    (r : Range) (chars : List CharEntry) (eaw : Bool)
    (hnorm : ∀ c ∈ chars, normalizeEa c.ea = "N" ∨ normalizeEa c.ea = "A" ∨
      normalizeEa c.ea = "W")
    (heffN : ∀ c ∈ chars, ∀ p, c.cp = some p → eff_class eaw c = "N") :
    merge_ranges [] is_same_width = none ∧
    gen_ambigous_ranges [r] = none ∧
    gen_wide_ranges [r] = none ∧
    ∃ e, get_ranges chars eaw = some [Range.mk "N" 0 e] ∧
      gen_ambigous_ranges [Range.mk "N" 0 e] = none ∧
      gen_wide_ranges [Range.mk "N" 0 e] = none := by
  refine ⟨rfl, rfl, rfl, ?_⟩
  obtain ⟨e, hgo⟩ := get_ranges_go_allN eaw chars [] ⟨"N", 0, 0⟩ hnorm heffN
  exact ⟨e, hgo, rfl, rfl⟩

/-- Witness for C10: a stream with a single Narrow record. -/
theorem pipeline_aborts_single_range_witness :
    (∀ c ∈ [CharEntry.mk "Na" (some 5) none],
      normalizeEa c.ea = "N" ∨ normalizeEa c.ea = "A" ∨ normalizeEa c.ea = "W") ∧
    (∀ c ∈ [CharEntry.mk "Na" (some 5) none], ∀ p, c.cp = some p →
      eff_class false c = "N") ∧
    (merge_ranges [] ambiguous_is_same_width = none ∧
     gen_ambigous_ranges [Range.mk "W" 1 2] = none ∧
     gen_wide_ranges [Range.mk "W" 1 2] = none ∧
     ∃ e, get_ranges [CharEntry.mk "Na" (some 5) none] false =
         some [Range.mk "N" 0 e] ∧
       gen_ambigous_ranges [Range.mk "N" 0 e] = none ∧
       gen_wide_ranges [Range.mk "N" 0 e] = none) :=
  ⟨by decide, by decide,
    pipeline_aborts_single_range ambiguous_is_same_width (Range.mk "W" 1 2)
      [CharEntry.mk "Na" (some 5) none] false (by decide) (by decide)⟩

theorem merge_ranges_as_fold (l m : List Range) (is_same_width : Range → Range → Bool)
    (c0 : Range) (rest : List Range) (hl : l = c0 :: rest)
    (hm : merge_ranges l is_same_width = some m) :
    m = spec_merge_fold is_same_width (c0 :: rest) c0 := by
  subst hl
  have : merge_ranges (c0 :: rest) is_same_width =
      some (merge_ranges_go is_same_width (c0 :: rest) [] c0) := rfl
  rw [this, Option.some.injEq] at hm
  rw [← hm, merge_ranges_go_eq_fold, List.nil_append]

theorem merge_ranges_prov (l m : List Range) (is_same_width : Range → Range → Bool)
    (P : Range → Prop) (hP : ∀ r e, P r → P { r with «end» := e })
    (hm : merge_ranges l is_same_width = some m)
    (hl : ∀ r ∈ l, P r) :
    ∀ x ∈ m, P x := by
  cases l with
  | nil => exact absurd hm (by simp [merge_ranges])
  | cons c0 rest =>
    rw [merge_ranges_as_fold _ m is_same_width c0 rest rfl hm]
    exact spec_merge_fold_prov is_same_width P hP (c0 :: rest) c0
      (hl c0 (List.mem_cons_self _ _)) hl

/-- C4: every Range in the wide-policy output has width `W`, and every
Range in the ambiguous-policy output has width `A` or `W` (in particular
none has width `N`). -/
theorem filter_completeness (chars : List CharEntry) (eaw : Bool)
    (rs outA outW : List Range)
    (hrs : get_ranges chars eaw = some rs)
    (hA : gen_ambigous_ranges rs = some outA)
    (hW : gen_wide_ranges rs = some outW) :
    (∀ r ∈ outW, r.width = "W") ∧
    (∀ r ∈ outA, r.width = "A" ∨ r.width = "W") := by
  have hwidths := get_ranges_widths chars eaw rs hrs
  have hdrop : ∀ r ∈ rs.drop 1, r.width = "N" ∨ r.width = "A" ∨ r.width = "W" :=
    fun r hr => hwidths r (List.drop_subset 1 rs hr)
  obtain ⟨mA, hmA, hsA⟩ := Option.map_eq_some'.mp hA
  obtain ⟨mW, hmW, hsW⟩ := Option.map_eq_some'.mp hW
  have hmAw : ∀ x ∈ mA, x.width = "N" ∨ x.width = "A" ∨ x.width = "W" :=
    merge_ranges_prov _ mA _ _ (fun r e hr => hr) hmA hdrop
  have hmWw : ∀ x ∈ mW, x.width = "N" ∨ x.width = "A" ∨ x.width = "W" :=
    merge_ranges_prov _ mW _ _ (fun r e hr => hr) hmW hdrop
  constructor
  · intro r hr
    rw [← hsW, mem_skip_ranges] at hr
    rcases hmWw r hr.1 with h | h | h
    · exact absurd (by simp [h]) hr.2
    · exact absurd (by simp [h]) hr.2
    · exact h
  · intro r hr
    rw [← hsA, mem_skip_ranges] at hr
    rcases hmAw r hr.1 with h | h | h
    · exact absurd (by simp [h]) hr.2
    · exact Or.inl h
    · exact Or.inr h

/-- Witness for C4 at a concrete stream. -/
theorem filter_completeness_witness :
    (get_ranges [CharEntry.mk "A" (some 1) none, CharEntry.mk "Na" (some 2) none,
        CharEntry.mk "W" (some 3) none] false =
      some [Range.mk "N" 0 0, Range.mk "A" 1 1, Range.mk "N" 2 2, Range.mk "W" 3 3]) ∧
    (gen_ambigous_ranges [Range.mk "N" 0 0, Range.mk "A" 1 1, Range.mk "N" 2 2,
        Range.mk "W" 3 3] = some [Range.mk "A" 1 1, Range.mk "W" 3 3]) ∧
    (gen_wide_ranges [Range.mk "N" 0 0, Range.mk "A" 1 1, Range.mk "N" 2 2,
        Range.mk "W" 3 3] = some [Range.mk "W" 3 3]) ∧
    ((∀ r ∈ ([Range.mk "W" 3 3] : List Range), r.width = "W") ∧
     (∀ r ∈ ([Range.mk "A" 1 1, Range.mk "W" 3 3] : List Range),
       r.width = "A" ∨ r.width = "W")) :=
  ⟨by decide, by decide, by decide,
    filter_completeness [CharEntry.mk "A" (some 1) none, CharEntry.mk "Na" (some 2) none,
        CharEntry.mk "W" (some 3) none] false
      [Range.mk "N" 0 0, Range.mk "A" 1 1, Range.mk "N" 2 2, Range.mk "W" 3 3]
      [Range.mk "A" 1 1, Range.mk "W" 3 3] [Range.mk "W" 3 3]
      (by decide) (by decide) (by decide)⟩

/-- C3 counterexample: after the ambiguous policy's fold AND filter, two
surviving Ranges that become adjacent only because a Narrow Range between
them was filtered out DO satisfy `is_same_width` — the claim's merge
soundness property fails post-filter.  The stream `A@1, Na@2, W@3` yields
pre-merge ranges `(N,0,0),(A,1,1),(N,2,2),(W,3,3)`; the ambiguous pipeline
outputs the adjacent pair `(A,1,1),(W,3,3)` with
`is_same_width((A,1,1),(W,3,3)) = true`. -/
theorem merge_soundness_cex :
    (get_ranges [CharEntry.mk "A" (some 1) none, CharEntry.mk "Na" (some 2) none,
        CharEntry.mk "W" (some 3) none] false =
      some [Range.mk "N" 0 0, Range.mk "A" 1 1, Range.mk "N" 2 2, Range.mk "W" 3 3]) ∧
    (gen_ambigous_ranges [Range.mk "N" 0 0, Range.mk "A" 1 1, Range.mk "N" 2 2,
        Range.mk "W" 3 3] = some [Range.mk "A" 1 1, Range.mk "W" 3 3]) ∧
    ambiguous_is_same_width (Range.mk "A" 1 1) (Range.mk "W" 3 3) = true := by
  decide

/-- C3 (amended): merge soundness holds for the *fold* output, before the
width filter: after applying either policy's fold to the pre-merge
RangeSet with its first Range removed, every pair of adjacent Ranges
`r1, r2` (`r1` before `r2`) satisfies `is_same_width(r1, r2) = false`; the
subsequent filter may place equivalently-classified Ranges next to each
other (see the counterexample). -/
theorem merge_soundness (chars : List CharEntry) (eaw : Bool) (rs mA mW : List Range)
    (hrs : get_ranges chars eaw = some rs)
    (hmA : merge_ranges (rs.drop 1) ambiguous_is_same_width = some mA)
    (hmW : merge_ranges (rs.drop 1) wide_is_same_width = some mW) :
    List.Chain' (fun r1 r2 => ambiguous_is_same_width r1 r2 = false) mA ∧
    List.Chain' (fun r1 r2 => wide_is_same_width r1 r2 = false) mW := by
  have hwidths := get_ranges_widths chars eaw rs hrs
  have hdrop : ∀ r ∈ rs.drop 1, r.width = "N" ∨ r.width = "A" ∨ r.width = "W" :=
    fun r hr => hwidths r (List.drop_subset 1 rs hr)
  have hmAw : ∀ x ∈ mA, x.width = "N" ∨ x.width = "A" ∨ x.width = "W" :=
    merge_ranges_prov _ mA _ _ (fun r e hr => hr) hmA hdrop
  have hmWw : ∀ x ∈ mW, x.width = "N" ∨ x.width = "A" ∨ x.width = "W" :=
    merge_ranges_prov _ mW _ _ (fun r e hr => hr) hmW hdrop
  constructor
  · rcases hd : rs.drop 1 with _ | ⟨c0, rest⟩
    · rw [hd] at hmA
      exact absurd hmA (by simp [merge_ranges])
    · rw [hd] at hmA
      have hfold := merge_ranges_as_fold _ mA ambiguous_is_same_width c0 rest rfl hmA
      have hrev : List.Chain' (fun a b => ambiguous_is_same_width b a = false) mA := by
        rw [hfold]
        exact spec_merge_fold_chain ambiguous_is_same_width (fun a e b => rfl)
          (c0 :: rest) c0
      refine chain_imp_of_mem mA ?_ hrev
      intro a ha b hb hr
      rw [amb_symm a b (hmAw a ha) (hmAw b hb)]
      exact hr
  · rcases hd : rs.drop 1 with _ | ⟨c0, rest⟩
    · rw [hd] at hmW
      exact absurd hmW (by simp [merge_ranges])
    · rw [hd] at hmW
      have hfold := merge_ranges_as_fold _ mW wide_is_same_width c0 rest rfl hmW
      have hrev : List.Chain' (fun a b => wide_is_same_width b a = false) mW := by
        rw [hfold]
        exact spec_merge_fold_chain wide_is_same_width (fun a e b => rfl)
          (c0 :: rest) c0
      refine chain_imp_of_mem mW ?_ hrev
      intro a ha b hb hr
      rw [wide_symm a b (hmWw a ha) (hmWw b hb)]
      exact hr

/-- Witness for the amended C3 at a concrete stream. -/
theorem merge_soundness_witness :
    (get_ranges [CharEntry.mk "A" (some 1) none, CharEntry.mk "Na" (some 2) none,
        CharEntry.mk "W" (some 3) none] false =
      some [Range.mk "N" 0 0, Range.mk "A" 1 1, Range.mk "N" 2 2, Range.mk "W" 3 3]) ∧
    (merge_ranges (([Range.mk "N" 0 0, Range.mk "A" 1 1, Range.mk "N" 2 2,
        Range.mk "W" 3 3] : List Range).drop 1) ambiguous_is_same_width =
      some [Range.mk "A" 1 1, Range.mk "N" 2 2, Range.mk "W" 3 3]) ∧
    (merge_ranges (([Range.mk "N" 0 0, Range.mk "A" 1 1, Range.mk "N" 2 2,
        Range.mk "W" 3 3] : List Range).drop 1) wide_is_same_width =
      some [Range.mk "A" 1 2, Range.mk "W" 3 3]) ∧
    (List.Chain' (fun r1 r2 => ambiguous_is_same_width r1 r2 = false)
       [Range.mk "A" 1 1, Range.mk "N" 2 2, Range.mk "W" 3 3] ∧
     List.Chain' (fun r1 r2 => wide_is_same_width r1 r2 = false)
       [Range.mk "A" 1 2, Range.mk "W" 3 3]) :=
  ⟨by decide, by decide, by decide,
    merge_soundness [CharEntry.mk "A" (some 1) none, CharEntry.mk "Na" (some 2) none,
        CharEntry.mk "W" (some 3) none] false
      [Range.mk "N" 0 0, Range.mk "A" 1 1, Range.mk "N" 2 2, Range.mk "W" 3 3]
      [Range.mk "A" 1 1, Range.mk "N" 2 2, Range.mk "W" 3 3]
      [Range.mk "A" 1 2, Range.mk "W" 3 3]
      (by decide) (by decide) (by decide)⟩

/-- C1 counterexample: the stream consisting of the single record
`(cp=0, ea='W')` is in strictly increasing code-point order, yet the
pre-merge RangeSet is `[(N,0,0), (W,0,0)]`: code point 0 is contained in
TWO distinct Ranges (the sentinel and the real one), the Ranges are not
strictly increasing by start, and the sentinel's width `N` differs from
the code point's effective class `W`. -/
theorem get_ranges_coverage_cex :
    List.Pairwise (· < ·) (cps [CharEntry.mk "W" (some 0) none]) ∧
    get_ranges [CharEntry.mk "W" (some 0) none] false =
      some [Range.mk "N" 0 0, Range.mk "W" 0 0] ∧
    ((Range.mk "N" 0 0).start ≤ 0 ∧ (0 : Nat) ≤ (Range.mk "N" 0 0).«end») ∧
    ((Range.mk "W" 0 0).start ≤ 0 ∧ (0 : Nat) ≤ (Range.mk "W" 0 0).«end») ∧
    Range.mk "N" 0 0 ≠ Range.mk "W" 0 0 ∧
    ¬ List.Pairwise (fun a b => a.«end» < b.start)
      [Range.mk "N" 0 0, Range.mk "W" 0 0] := by
  decide

/-- C1 (amended): for every input stream whose code-point-bearing records
appear in strictly increasing code-point order AND whose record at code
point 0 (if any) has effective class Narrow, the pre-merge RangeSet is
non-overlapping and strictly increasing by start, and every code point
present in the stream is contained in exactly one Range, whose recorded
width equals the code point's effective class (east-asian-width normalized
by {Na,H} → N, F → W, overridden to W by `emoji_as_wide` + ExtPict='Y').
Without the code-point-0 proviso the sentinel Range overlaps the first
real Range (see the counterexample). -/
theorem get_ranges_coverage (chars : List CharEntry) (eaw : Bool) (rs : List Range)
    (hnorm : ∀ c ∈ chars, normalizeEa c.ea = "N" ∨ normalizeEa c.ea = "A" ∨
      normalizeEa c.ea = "W")
    (hincr : List.Pairwise (· < ·) (cps chars))
    (hzero : ∀ c ∈ chars, c.cp = some 0 → eff_class eaw c = "N")
    (hrs : get_ranges chars eaw = some rs) :
    List.Pairwise (fun a b => a.«end» < b.start) rs ∧
    (∀ r ∈ rs, r.start ≤ r.«end») ∧
    (∀ c ∈ chars, ∀ p, c.cp = some p →
      ∃ r ∈ rs, (r.start ≤ p ∧ p ≤ r.«end» ∧ r.width = eff_class eaw c) ∧
        ∀ r2 ∈ rs, r2.start ≤ p → p ≤ r2.«end» → r2 = r) := by
  obtain ⟨first, rest, hgo, h1, h2, h4, h5, h6, hcov⟩ :=
    get_ranges_spec chars eaw hnorm hincr hzero
  rw [hrs, Option.some.injEq] at hgo
  subst hgo
  refine ⟨h4, h5, ?_⟩
  intro c hc p hp
  obtain ⟨r, hr, hrs1, hre1, hrw⟩ := hcov c hc p hp
  refine ⟨r, hr, ⟨hrs1, hre1, hrw⟩, ?_⟩
  intro r2 hr2 hs2 he2
  exact pairwise_ranges_unique _ h4 p r2 hr2 r hr hs2 he2 hrs1 hre1

/-- Witness for the amended C1 at a concrete stream. -/
theorem get_ranges_coverage_witness :
    (∀ c ∈ [CharEntry.mk "Na" (some 1) none, CharEntry.mk "W" (some 2) none],
      normalizeEa c.ea = "N" ∨ normalizeEa c.ea = "A" ∨ normalizeEa c.ea = "W") ∧
    List.Pairwise (· < ·)
      (cps [CharEntry.mk "Na" (some 1) none, CharEntry.mk "W" (some 2) none]) ∧
    (∀ c ∈ [CharEntry.mk "Na" (some 1) none, CharEntry.mk "W" (some 2) none],
      c.cp = some 0 → eff_class false c = "N") ∧
    (get_ranges [CharEntry.mk "Na" (some 1) none, CharEntry.mk "W" (some 2) none]
      false = some [Range.mk "N" 0 1, Range.mk "W" 2 2]) ∧
    (List.Pairwise (fun a b => a.«end» < b.start)
       [Range.mk "N" 0 1, Range.mk "W" 2 2] ∧
     (∀ r ∈ ([Range.mk "N" 0 1, Range.mk "W" 2 2] : List Range),
       r.start ≤ r.«end») ∧
     (∀ c ∈ [CharEntry.mk "Na" (some 1) none, CharEntry.mk "W" (some 2) none],
       ∀ p, c.cp = some p →
       ∃ r ∈ ([Range.mk "N" 0 1, Range.mk "W" 2 2] : List Range),
         (r.start ≤ p ∧ p ≤ r.«end» ∧ r.width = eff_class false c) ∧
         ∀ r2 ∈ ([Range.mk "N" 0 1, Range.mk "W" 2 2] : List Range),
           r2.start ≤ p → p ≤ r2.«end» → r2 = r)) :=
  ⟨by decide, by decide, by decide, by decide,
    get_ranges_coverage
      [CharEntry.mk "Na" (some 1) none, CharEntry.mk "W" (some 2) none] false
      [Range.mk "N" 0 1, Range.mk "W" 2 2]
      (by decide) (by decide) (by decide) (by decide)⟩

/-- C5 counterexample: with the strictly increasing stream consisting of
the single record `(cp=0, ea='W')`, the emitted threshold is 0 (the first
pre-merge Range's end), yet code point 0 — which is ≤ the threshold — IS
covered by an entry of both policy tables, so the claimed "no entry covers
any code point ≤ threshold" fails. -/
theorem threshold_correct_cex :
    List.Pairwise (· < ·) (cps [CharEntry.mk "W" (some 0) none]) ∧
    get_ranges [CharEntry.mk "W" (some 0) none] false =
      some [Range.mk "N" 0 0, Range.mk "W" 0 0] ∧
    gen_c_threshold [Range.mk "N" 0 0, Range.mk "W" 0 0] = some 0 ∧
    gen_wide_ranges [Range.mk "N" 0 0, Range.mk "W" 0 0] =
      some [Range.mk "W" 0 0] ∧
    gen_ambigous_ranges [Range.mk "N" 0 0, Range.mk "W" 0 0] =
      some [Range.mk "W" 0 0] ∧
    ((0 : Nat) ≤ 0 ∧ (Range.mk "W" 0 0).start ≤ 0 ∧
      (0 : Nat) ≤ (Range.mk "W" 0 0).«end») := by
  decide

/-- C5 (amended): for a strictly increasing input stream whose record at
code point 0 (if any) has effective class Narrow, the emitted fast-path
threshold is exactly the end of the first pre-merge Range — the first
maximal run of effective class Narrow starting at code point 0 (it has
width `N`, start `0`, and the next pre-merge Range, if any, is not
Narrow) — and every code point ≤ that threshold lies in no entry of either
emitted policy table.  Without the code-point-0 proviso the property fails
(see the counterexample). -/
theorem threshold_correct (chars : List CharEntry) (eaw : Bool) (r0 : Range)
    (rest outA outW : List Range)
    (hnorm : ∀ c ∈ chars, normalizeEa c.ea = "N" ∨ normalizeEa c.ea = "A" ∨
      normalizeEa c.ea = "W")
    (hincr : List.Pairwise (· < ·) (cps chars))
    (hzero : ∀ c ∈ chars, c.cp = some 0 → eff_class eaw c = "N")
    (hrs : get_ranges chars eaw = some (r0 :: rest))
    (hA : gen_ambigous_ranges (r0 :: rest) = some outA)
    (hW : gen_wide_ranges (r0 :: rest) = some outW) :
    gen_c_threshold (r0 :: rest) = some r0.«end» ∧
    r0.width = "N" ∧ r0.start = 0 ∧
    (∀ r1, rest.head? = some r1 → r1.width ≠ "N") ∧
    (∀ p, p ≤ r0.«end» →
      (∀ m ∈ outA, ¬(m.start ≤ p ∧ p ≤ m.«end»)) ∧
      (∀ m ∈ outW, ¬(m.start ≤ p ∧ p ≤ m.«end»))) := by
  obtain ⟨first, rest', hgo, h1, h2, h4, h5, h6, hcov⟩ :=
    get_ranges_spec chars eaw hnorm hincr hzero
  rw [hrs, Option.some.injEq, List.cons.injEq] at hgo
  obtain ⟨hg1, hg2⟩ := hgo
  subst hg1
  subst hg2
  refine ⟨rfl, h2, h1, ?_, ?_⟩
  · cases rest with
    | nil => intro r1 hr1; exact Option.noConfusion hr1
    | cons r1 rest2 =>
      intro x hx
      rw [List.head?_cons, Option.some.injEq] at hx
      subst hx
      have hne := (List.chain'_cons.mp h6).1
      rw [h2] at hne
      exact fun hcontra => hne (hcontra ▸ rfl)
  · have htail : ∀ x ∈ rest, r0.«end» < x.start := (List.pairwise_cons.mp h4).1
    intro p hple
    obtain ⟨mA, hmA, hsA⟩ := Option.map_eq_some'.mp hA
    obtain ⟨mW, hmW, hsW⟩ := Option.map_eq_some'.mp hW
    have hbA : ∀ x ∈ mA, r0.«end» < x.start :=
      merge_ranges_prov _ mA _ (fun x => r0.«end» < x.start)
        (fun r e hr => hr) hmA htail
    have hbW : ∀ x ∈ mW, r0.«end» < x.start :=
      merge_ranges_prov _ mW _ (fun x => r0.«end» < x.start)
        (fun r e hr => hr) hmW htail
    constructor
    · intro m hm'
      rw [← hsA, mem_skip_ranges] at hm'
      have hlt := hbA m hm'.1
      rintro ⟨hsp, _⟩
      omega
    · intro m hm'
      rw [← hsW, mem_skip_ranges] at hm'
      have hlt := hbW m hm'.1
      rintro ⟨hsp, _⟩
      omega

/-- Witness for the amended C5 at a concrete stream. -/
theorem threshold_correct_witness :
    (∀ c ∈ [CharEntry.mk "Na" (some 1) none, CharEntry.mk "W" (some 2) none],
      normalizeEa c.ea = "N" ∨ normalizeEa c.ea = "A" ∨ normalizeEa c.ea = "W") ∧
    List.Pairwise (· < ·)
      (cps [CharEntry.mk "Na" (some 1) none, CharEntry.mk "W" (some 2) none]) ∧
    (∀ c ∈ [CharEntry.mk "Na" (some 1) none, CharEntry.mk "W" (some 2) none],
      c.cp = some 0 → eff_class false c = "N") ∧
    (get_ranges [CharEntry.mk "Na" (some 1) none, CharEntry.mk "W" (some 2) none]
      false = some [Range.mk "N" 0 1, Range.mk "W" 2 2]) ∧
    (gen_ambigous_ranges [Range.mk "N" 0 1, Range.mk "W" 2 2] =
      some [Range.mk "W" 2 2]) ∧
    (gen_wide_ranges [Range.mk "N" 0 1, Range.mk "W" 2 2] =
      some [Range.mk "W" 2 2]) ∧
    (gen_c_threshold (Range.mk "N" 0 1 :: [Range.mk "W" 2 2]) =
       some (Range.mk "N" 0 1).«end» ∧
     (Range.mk "N" 0 1).width = "N" ∧ (Range.mk "N" 0 1).start = 0 ∧
     (∀ r1, ([Range.mk "W" 2 2] : List Range).head? = some r1 → r1.width ≠ "N") ∧
     (∀ p, p ≤ (Range.mk "N" 0 1).«end» →
       (∀ m ∈ ([Range.mk "W" 2 2] : List Range),
         ¬(m.start ≤ p ∧ p ≤ m.«end»)) ∧
       (∀ m ∈ ([Range.mk "W" 2 2] : List Range),
         ¬(m.start ≤ p ∧ p ≤ m.«end»)))) :=
  ⟨by decide, by decide, by decide, by decide, by decide, by decide,
    threshold_correct
      [CharEntry.mk "Na" (some 1) none, CharEntry.mk "W" (some 2) none] false
      (Range.mk "N" 0 1) [Range.mk "W" 2 2] [Range.mk "W" 2 2] [Range.mk "W" 2 2]
      (by decide) (by decide) (by decide) (by decide) (by decide) (by decide)⟩

/-- C2 counterexample: a code point marked ExtPict='Y' with raw
east-asian-width `Na`, extracted with `emoji_as_wide=true`, gets effective
class Wide — and its code point is covered by an entry of the wide-policy
table AND by an entry of the ambiguous-policy table (the ambiguous policy
keeps both Ambiguous and Wide ranges), contradicting the claim that it
appears in no entry of the ambiguous-policy table. -/
theorem emoji_wide_tables_cex :
    eff_class true (CharEntry.mk "Na" (some 1) (some "Y")) = "W" ∧
    get_ranges [CharEntry.mk "Na" (some 1) (some "Y")] true =
      some [Range.mk "N" 0 0, Range.mk "W" 1 1] ∧
    gen_wide_ranges [Range.mk "N" 0 0, Range.mk "W" 1 1] =
      some [Range.mk "W" 1 1] ∧
    gen_ambigous_ranges [Range.mk "N" 0 0, Range.mk "W" 1 1] =
      some [Range.mk "W" 1 1] ∧
    ((Range.mk "W" 1 1).start ≤ 1 ∧ (1 : Nat) ≤ (Range.mk "W" 1 1).«end») := by
  decide

/-- C2 (amended): for a valid stream (strictly increasing code points,
code point 0 Narrow if present), every record carrying ExtPict='Y' with
raw east-asian-width `Na`, extracted with `emoji_as_wide=true`, has
effective class Wide, and its code point is covered by some entry of the
wide-policy table AND by some entry of the ambiguous-policy table — not by
no entry of the latter as the claim stated: the ambiguous-policy table
answers "ambiguous-or-wide", so Wide code points belong to it too. -/
theorem emoji_wide_tables (chars : List CharEntry) (c : CharEntry) (p : Nat)
    (rs : List Range)
    (hnorm : ∀ x ∈ chars, normalizeEa x.ea = "N" ∨ normalizeEa x.ea = "A" ∨
      normalizeEa x.ea = "W")
    (hincr : List.Pairwise (· < ·) (cps chars))
    (hzero : ∀ x ∈ chars, x.cp = some 0 → eff_class true x = "N")
    (hrs : get_ranges chars true = some rs)
    (hc : c ∈ chars) (hcp : c.cp = some p)
    (hpict : c.extPict = some "Y") (_hraw : c.ea = "Na") :
    eff_class true c = "W" ∧
    (∃ outW, gen_wide_ranges rs = some outW ∧
      ∃ m ∈ outW, m.start ≤ p ∧ p ≤ m.«end») ∧
    (∃ outA, gen_ambigous_ranges rs = some outA ∧
      ∃ m ∈ outA, m.start ≤ p ∧ p ≤ m.«end») := by
  have heff : eff_class true c = "W" := by simp [eff_class, hpict]
  obtain ⟨first, rest, hgo, h1, h2, h4, h5, h6, hcov⟩ :=
    get_ranges_spec chars true hnorm hincr hzero
  rw [hrs, Option.some.injEq] at hgo
  subst hgo
  obtain ⟨r, hr, hrs1, hre1, hrw⟩ := hcov c hc p hcp
  rw [heff] at hrw
  have hrmem : r ∈ rest := by
    rcases List.mem_cons.mp hr with hre | hrm
    · rw [hre, h2] at hrw
      exact absurd hrw (by decide)
    · exact hrm
  cases rest with
  | nil => exact absurd hrmem (List.not_mem_nil _)
  | cons c0 rest2 =>
    have hwidths := get_ranges_widths chars true (first :: c0 :: rest2) hrs
    have hpw2 : List.Pairwise (fun a b => a.«end» < b.start) (c0 :: rest2) :=
      (List.pairwise_cons.mp h4).2
    have hse2 : ∀ x ∈ c0 :: rest2, x.start ≤ x.«end» :=
      fun x hx => h5 x (List.mem_cons_of_mem _ hx)
    have h0 : c0.width = "N" ∨ c0.width = "A" ∨ c0.width = "W" :=
      hwidths c0 (List.mem_cons_of_mem _ (List.mem_cons_self _ _))
    refine ⟨heff, ?_, ?_⟩
    · -- wide-policy table
      obtain ⟨mf, mrest, heqf, _, _, _, hcovf⟩ :=
        spec_merge_fold_cover wide_is_same_width (fun a b e => rfl) rest2 c0 hpw2 hse2
      obtain ⟨m, hmmem, hms, hme, hmw⟩ := hcovf r hrmem
      have hmW : m.width = "W" := by
        rcases hmw with hmw | hmw
        · rw [hmw, hrw]
        · unfold wide_is_same_width at hmw
          rw [hrw] at hmw
          rw [if_neg (by decide)] at hmw
          exact of_decide_eq_true hmw
      have hgenW : gen_wide_ranges (first :: c0 :: rest2) =
          some (skip_ranges (spec_merge_fold wide_is_same_width rest2 c0)
            ["N", "A"]) := by
        unfold gen_wide_ranges
        rw [List.drop_one, List.tail_cons,
          merge_ranges_eq_fold wide_is_same_width c0 rest2 (wide_refl c0 h0)]
        rfl
      refine ⟨_, hgenW, m, ?_, le_trans hms hrs1, le_trans hre1 hme⟩
      refine (mem_skip_ranges _ _ m).mpr ⟨?_, ?_⟩
      · rw [heqf]; exact hmmem
      · rw [hmW]; decide
    · -- ambiguous-policy table
      obtain ⟨mf, mrest, heqf, _, _, _, hcovf⟩ :=
        spec_merge_fold_cover ambiguous_is_same_width (fun a b e => rfl)
          rest2 c0 hpw2 hse2
      obtain ⟨m, hmmem, hms, hme, hmw⟩ := hcovf r hrmem
      have hmAW : m.width = "A" ∨ m.width = "W" := by
        rcases hmw with hmw | hmw
        · right; rw [hmw, hrw]
        · unfold ambiguous_is_same_width at hmw
          rw [hrw] at hmw
          rw [if_neg (by decide)] at hmw
          exact of_decide_eq_true hmw
      have hgenA : gen_ambigous_ranges (first :: c0 :: rest2) =
          some (skip_ranges (spec_merge_fold ambiguous_is_same_width rest2 c0)
            ["N"]) := by
        unfold gen_ambigous_ranges
        rw [List.drop_one, List.tail_cons,
          merge_ranges_eq_fold ambiguous_is_same_width c0 rest2 (amb_refl c0 h0)]
        rfl
      refine ⟨_, hgenA, m, ?_, le_trans hms hrs1, le_trans hre1 hme⟩
      refine (mem_skip_ranges _ _ m).mpr ⟨?_, ?_⟩
      · rw [heqf]; exact hmmem
      · rcases hmAW with h | h <;> rw [h] <;> decide

/-- Witness for the amended C2 at a concrete stream. -/
theorem emoji_wide_tables_witness :
    (∀ x ∈ [CharEntry.mk "Na" (some 1) (some "Y")],
      normalizeEa x.ea = "N" ∨ normalizeEa x.ea = "A" ∨ normalizeEa x.ea = "W") ∧
    List.Pairwise (· < ·) (cps [CharEntry.mk "Na" (some 1) (some "Y")]) ∧
    (∀ x ∈ [CharEntry.mk "Na" (some 1) (some "Y")],
      x.cp = some 0 → eff_class true x = "N") ∧
    (get_ranges [CharEntry.mk "Na" (some 1) (some "Y")] true =
      some [Range.mk "N" 0 0, Range.mk "W" 1 1]) ∧
    CharEntry.mk "Na" (some 1) (some "Y") ∈ [CharEntry.mk "Na" (some 1) (some "Y")] ∧
    (CharEntry.mk "Na" (some 1) (some "Y")).cp = some 1 ∧
    (CharEntry.mk "Na" (some 1) (some "Y")).extPict = some "Y" ∧
    (CharEntry.mk "Na" (some 1) (some "Y")).ea = "Na" ∧
    (eff_class true (CharEntry.mk "Na" (some 1) (some "Y")) = "W" ∧
     (∃ outW, gen_wide_ranges [Range.mk "N" 0 0, Range.mk "W" 1 1] = some outW ∧
       ∃ m ∈ outW, m.start ≤ 1 ∧ 1 ≤ m.«end») ∧
     (∃ outA, gen_ambigous_ranges [Range.mk "N" 0 0, Range.mk "W" 1 1] = some outA ∧
       ∃ m ∈ outA, m.start ≤ 1 ∧ 1 ≤ m.«end»)) :=
  ⟨by decide, by decide, by decide, by decide, by decide, by decide, by decide, by decide,
    emoji_wide_tables [CharEntry.mk "Na" (some 1) (some "Y")]
      (CharEntry.mk "Na" (some 1) (some "Y")) 1
      [Range.mk "N" 0 0, Range.mk "W" 1 1]
      (by decide) (by decide) (by decide) (by decide) (by decide) (by decide)
      (by decide) (by decide)⟩

/-- C8: in each generated dispatch table the emitted case lines are
exactly `spec_case_lines` of the policy's output RangeSet: every line but
the last carries the fallthrough continuation marker, the last line
carries none, a single-code-point Range (start = end) is emitted as a
single match value and a multi-point Range as an inclusive bounded
match. -/
theorem dispatch_fallthrough (ranges outA outW : List Range)
    (hA : gen_ambigous_ranges ranges = some outA)
    (hW : gen_wide_ranges ranges = some outW) :
    gen_ambigous_lines ranges = some (spec_case_lines outA) ∧
    gen_wide_lines ranges = some (spec_case_lines outW) ∧
    (∀ x ∈ (spec_case_lines outA).dropLast, line_ft x = true) ∧
    (∀ x, (spec_case_lines outA).getLast? = some x → line_ft x = false) ∧
    (∀ x ∈ (spec_case_lines outW).dropLast, line_ft x = true) ∧
    (∀ x, (spec_case_lines outW).getLast? = some x → line_ft x = false) := by
  obtain ⟨mA, hmA, hsA⟩ := Option.map_eq_some'.mp hA
  obtain ⟨mW, hmW, hsW⟩ := Option.map_eq_some'.mp hW
  refine ⟨?_, ?_, (spec_case_lines_ft outA).1, (spec_case_lines_ft outA).2,
    (spec_case_lines_ft outW).1, (spec_case_lines_ft outW).2⟩
  · unfold gen_ambigous_lines
    rw [hmA, Option.map_some', Option.some.injEq, hsA]
    refine emit_cases_go_spec ["N"] outA.length outA 0 (by simp) ?_
    intro r hr
    rw [← hsA] at hr
    exact ((mem_skip_ranges _ _ r).mp hr).2
  · unfold gen_wide_lines
    rw [hmW, Option.map_some', Option.some.injEq, hsW]
    refine emit_cases_go_spec ["N", "A"] outW.length outW 0 (by simp) ?_
    intro r hr
    rw [← hsW] at hr
    exact ((mem_skip_ranges _ _ r).mp hr).2

/-- Witness for C8 at a concrete RangeSet with one bounded and one single
match in the ambiguous table. -/
theorem dispatch_fallthrough_witness :
    (gen_ambigous_ranges [Range.mk "N" 0 0, Range.mk "A" 1 2, Range.mk "N" 3 3,
        Range.mk "W" 5 5] = some [Range.mk "A" 1 2, Range.mk "W" 5 5]) ∧
    (gen_wide_ranges [Range.mk "N" 0 0, Range.mk "A" 1 2, Range.mk "N" 3 3,
        Range.mk "W" 5 5] = some [Range.mk "W" 5 5]) ∧
    (gen_ambigous_lines [Range.mk "N" 0 0, Range.mk "A" 1 2, Range.mk "N" 3 3,
        Range.mk "W" 5 5] =
       some (spec_case_lines [Range.mk "A" 1 2, Range.mk "W" 5 5]) ∧
     gen_wide_lines [Range.mk "N" 0 0, Range.mk "A" 1 2, Range.mk "N" 3 3,
        Range.mk "W" 5 5] = some (spec_case_lines [Range.mk "W" 5 5]) ∧
     (∀ x ∈ (spec_case_lines [Range.mk "A" 1 2, Range.mk "W" 5 5]).dropLast,
       line_ft x = true) ∧
     (∀ x, (spec_case_lines [Range.mk "A" 1 2, Range.mk "W" 5 5]).getLast? =
       some x → line_ft x = false) ∧
     (∀ x ∈ (spec_case_lines [Range.mk "W" 5 5]).dropLast, line_ft x = true) ∧
     (∀ x, (spec_case_lines [Range.mk "W" 5 5]).getLast? = some x →
       line_ft x = false)) :=
  ⟨by decide, by decide,
    dispatch_fallthrough [Range.mk "N" 0 0, Range.mk "A" 1 2, Range.mk "N" 3 3,
        Range.mk "W" 5 5]
      [Range.mk "A" 1 2, Range.mk "W" 5 5] [Range.mk "W" 5 5]
      (by decide) (by decide)⟩
